import Mathlib

/-!
Verification development for the Cuban Crow prototype
(`src/prototype_decryption_encryption/cuban_crow.py`).

The byte-level checksum pipeline (`compute_checksums`) is translated directly
from the source.  The parts of the pipeline implemented by the external
`crypt4gh` library (header codec, key exchange, segment cipher) are modelled
from the specification, using a symbolic (Dolev–Yao style) view of the
authenticated-encryption primitives: an encrypted object carries the identity
of the key that can open it, opening succeeds exactly for that key.  Hash
functions are kept abstract (the spec declares the digest algorithm a
configuration constant), so theorems quantify over the hash `H`; witnesses
instantiate it concretely.  Bytes are modelled as `Nat`.
-/

namespace CubanCrow

abbrev Bytes := List Nat

abbrev Digest := List Nat

/-- Source constant `PART_SIZE = 16 * 1024**2` (line 35). -/
def PART_SIZE : Nat := 16 * 1024 ^ 2

/-- Source import `CIPHER_SEGMENT_SIZE` from `crypt4gh.lib`:
`SEGMENT_SIZE (65536) + CIPHER_DIFF (28)` bytes of ciphertext per segment. -/
def CIPHER_SEGMENT_SIZE : Nat := 65564

/-- Failure modes of the translated Python code: `decryptFailed` models the
`ValueError` raised by `crypt4gh.lib.decrypt_block` when no session key
authenticates, `filePartUnassigned` models the `NameError` on reading the
never-assigned `file_part` variable (line 127), `headerFailed` models the
exceptions raised while deconstructing the header, and `outOfFuel` is an
artifact of the fuel-indexed loop translation (unreachable when the fuel is at
least the number of remaining bytes). -/
inductive CCErr where
  | decryptFailed
  | filePartUnassigned
  | outOfFuel
  | headerFailed

/-- Code run after the `while` loop of `compute_checksums` (lines 125-130):
if the part buffer is non-empty, one more digest is appended — computed from
the variable `file_part` (the slice saved by the last full-part flush), not
from the buffer. -/
def ccFinish (H : Bytes → Digest) (buffer : Bytes) (filePart : Option Bytes)
    (checks : List Digest) (plain out : Bytes) :
    Except CCErr (List Digest × Digest × Bytes) :=
  if buffer.isEmpty then Except.ok (checks, H plain, out)
  else
    match filePart with
    | none => Except.error CCErr.filePartUnassigned
    | some fp => Except.ok (checks ++ [H fp], H plain, out)

/-- The `while part:` loop of `compute_checksums` (lines 107-124), fuel-indexed
so that it is structurally recursive.  State: `rest` is the unread suffix of
the body, `buffer` is `part_buffer`, `filePart` is the optional value of the
Python variable `file_part`, `checks` is `encrypted_part_checksums`, `plain`
is the byte stream fed to `total_checksum`, and `out` is what has been written
to the `encrypted_content` output file.  Each iteration reads
`part := rest.take segSize`, writes it out, extends the buffer, flushes one
part digest if the buffer reached `partSize`, then decrypts the segment with
`D` and appends the plaintext. -/
def ccLoopF (H : Bytes → Digest) (D : Bytes → Option Bytes) (partSize segSize : Nat) :
    Nat → Bytes → Bytes → Option Bytes → List Digest → Bytes → Bytes →
    Except CCErr (List Digest × Digest × Bytes)
  | 0, rest, buffer, filePart, checks, plain, out =>
    if (rest.take segSize).isEmpty then ccFinish H buffer filePart checks plain out
    else Except.error CCErr.outOfFuel
  | fuel + 1, rest, buffer, filePart, checks, plain, out =>
    let part := rest.take segSize
    if part.isEmpty then ccFinish H buffer filePart checks plain out
    else
      let buf1 := buffer ++ part
      if partSize ≤ buf1.length then
        match D part with
        | none => Except.error CCErr.decryptFailed
        | some dec =>
          ccLoopF H D partSize segSize fuel (rest.drop segSize) (buf1.drop partSize)
            (some (buf1.take partSize)) (checks ++ [H (buf1.take partSize)])
            (plain ++ dec) (out ++ part)
      else
        match D part with
        | none => Except.error CCErr.decryptFailed
        | some dec =>
          ccLoopF H D partSize segSize fuel (rest.drop segSize) buf1 filePart checks
            (plain ++ dec) (out ++ part)

/-- Translation of `compute_checksums` (lines 85-130), generic in the part
size, the segment size, the hash `H` and the per-segment decryption `D`
(the source fixes `partSize := PART_SIZE`, `segSize := CIPHER_SEGMENT_SIZE`,
`H := sha256·hexdigest` and `D := crypt4gh.lib.decrypt_block` with the single
session key `secret`).  Returns the list of part checksums, the whole-file
digest, and the bytes written to the `encrypted_content` output file. -/
def compute_checksums (H : Bytes → Digest) (D : Bytes → Option Bytes)
    (partSize segSize : Nat) (body : Bytes) :
    Except CCErr (List Digest × Digest × Bytes) :=
  ccLoopF H D partSize segSize body.length body [] none [] [] []

/-- Fuel-indexed decomposition of a byte stream into successive
`segSize`-sized reads, mirroring the read pattern of the loop. -/
def chunkifyF (segSize : Nat) : Nat → Bytes → List Bytes
  | 0, _ => []
  | fuel + 1, body =>
    let c := body.take segSize
    if c.isEmpty then [] else c :: chunkifyF segSize fuel (body.drop segSize)

/-- The sequence of `segSize`-sized reads the loop performs on `body`. -/
def chunkify (segSize : Nat) (body : Bytes) : List Bytes :=
  chunkifyF segSize body.length body

/-- Option-valued map over a list, failing when any element fails. -/
def mapOpt (f : α → Option β) : List α → Option (List β)
  | [] => some []
  | a :: as =>
    match f a with
    | none => none
    | some b =>
      match mapOpt f as with
      | none => none
      | some bs => some (b :: bs)

/-- Concatenation of the decryptions of all `segSize`-sized reads of `body`;
`none` when some segment fails to decrypt. -/
def decryptedConcat (D : Bytes → Option Bytes) (segSize : Nat) (body : Bytes) :
    Option Bytes :=
  match mapOpt D (chunkify segSize body) with
  | none => none
  | some ps => some ps.flatten

/-- Modelled from the spec: X25519 public-key derivation (data model, `KeyPair`:
the public key is derivable from the private key).  Symbolically the public
key is an injective function of the private key. -/
def pub (sk : Nat) : Nat := sk + 1

/-- Payload of one opened header packet: spec 4.2, a packet decrypts to
exactly one of a session-key record or an edit-list record. -/
inductive PacketData where
  | sessionKey (k : Nat)
  | editList (raw : List Nat)

/-- Little-endian 4-byte encoding used by the container wire format
(spec section 6). -/
def le32 (n : Nat) : Bytes := [n % 256, n / 256 % 256, n / 65536 % 256, n / 16777216 % 256]

/-- Value of 4 little-endian bytes. -/
def de32 (a b c d : Nat) : Nat := a + 256 * b + 65536 * c + 16777216 * d

/-- Modelled from the spec: serialization of a packet payload
(`crypt4gh.header.make_packet_data_enc`): a type tag followed by the record. -/
def encodePacketData : PacketData → Bytes
  | PacketData.sessionKey k => 0 :: le32 k
  | PacketData.editList raw => 1 :: raw

/-- Modelled from the spec: parsing a decrypted packet payload back into a
record. -/
def decodePacketData : Bytes → Option PacketData
  | 0 :: a :: b :: c :: d :: [] => some (PacketData.sessionKey (de32 a b c d))
  | 1 :: raw => some (PacketData.editList raw)
  | _ => none

/-- Modelled from the spec: the Key Exchange Unit `seal` (4.1), symbolic: the
sealed packet records the recipient public key it was encrypted for, followed
by the payload.  The sender secret takes part in the real construction but
does not influence who can open the packet. -/
def sealPacket (content : Bytes) (_senderSec recipientPub : Nat) : Bytes :=
  le32 recipientPub ++ content

/-- Modelled from the spec: the Key Exchange Unit `open` (4.1): opening
succeeds exactly when the packet was sealed for this private key's public
key, and then yields the decoded payload. -/
def openPacket (sk : Nat) (pkt : Bytes) : Option PacketData :=
  if pkt.take 4 = le32 (pub sk) then decodePacketData (pkt.drop 4) else none

/-- Try every supplied recipient private key in order until one opens the
packet (spec 4.2). -/
def openWith (keys : List Nat) (pkt : Bytes) : Option PacketData :=
  keys.findSome? fun sk => openPacket sk pkt

/-- The 8-byte container magic constant, `crypt4gh` in ASCII (spec section 6). -/
def MAGIC : Bytes := [99, 114, 121, 112, 116, 52, 103, 104]

/-- The single supported container version (spec section 6). -/
def VERSION : Nat := 1

/-- Wire format of the packet section: per packet a 4-byte little-endian
length prefix followed by the sealed packet bytes (spec section 6). -/
def serializePackets (pkts : List Bytes) : Bytes :=
  pkts.flatMap fun p => le32 p.length ++ p

/-- Modelled from the spec: `crypt4gh.header.serialize`:
magic, version, packet count, then the packets (spec section 6). -/
def serializeHeader (pkts : List Bytes) : Bytes :=
  MAGIC ++ le32 VERSION ++ le32 pkts.length ++ serializePackets pkts

/-- Read one 4-byte little-endian integer from the stream. -/
def readLE32 : Bytes → Option (Nat × Bytes)
  | a :: b :: c :: d :: rest => some (de32 a b c d, rest)
  | _ => none

/-- Modelled from the spec: the packet-reading loop of header decoding (4.2):
for each declared packet read its length-prefixed bytes and attempt to open
it with every supplied key; packets no key opens are skipped.  The `consumed`
counter tracks the byte offset (the stream position, `file_stream.tell()`).
Returns the opened packet payloads in order and the offset immediately after
the last packet. -/
def parsePackets (keys : List Nat) : Nat → Bytes → Nat → Option (List PacketData × Nat)
  | 0, _, consumed => some ([], consumed)
  | n + 1, s, consumed =>
    match readLE32 s with
    | none => none
    | some (len, s1) =>
      if len ≤ s1.length then
        match parsePackets keys n (s1.drop len) (consumed + 4 + len) with
        | none => none
        | some (ds, off) => some ((openWith keys (s1.take len)).toList ++ ds, off)
      else none

/-- Select the session-key records among opened packet payloads. -/
def sessionKeyOf : PacketData → Option Nat
  | PacketData.sessionKey k => some k
  | _ => none

/-- Modelled from the spec: `crypt4gh.header.deconstruct` (4.2 `decode_header`):
check magic and version, read the packet count, open the packets with the
supplied keys, and return the session keys together with the byte offset
immediately following the last header packet.  Fails when magic or version
are wrong, the structure is truncated, or no packet yields a session key. -/
def deconstruct (keys : List Nat) (stream : Bytes) : Option (List Nat × Nat) :=
  if stream.take 8 = MAGIC then
    match readLE32 (stream.drop 8) with
    | none => none
    | some (v, s1) =>
      if v = VERSION then
        match readLE32 s1 with
        | none => none
        | some (count, s2) =>
          match parsePackets keys count s2 16 with
          | none => none
          | some (ds, off) =>
            let sks := ds.filterMap sessionKeyOf
            if sks.isEmpty then none else some (sks, off)
      else none
  else none

/-- The session keys harvested from a serialized packet list by a given key
list: packets some key opens, restricted to session-key records. -/
def openedSessionKeys (keys : List Nat) (pkts : List Bytes) : List Nat :=
  (pkts.filterMap (openWith keys)).filterMap sessionKeyOf

/-- Translation of `encryption_key_store_upload` (lines 133-160): deconstruct
the header of the first file part with the GHGA private key, take the FIRST
session key (`session_keys[0]`), and return it with its hash id and the
stream offset after the header.  Header failures surface as exceptions
(`headerFailed`). -/
def encryption_key_store_upload (H : Bytes → Digest) (ghgaSec : Nat) (filePart : Bytes) :
    Except CCErr (Nat × Digest × Nat) :=
  match deconstruct [ghgaSec] filePart with
  | some (k :: _, off) => Except.ok (k, H (le32 k), off)
  | _ => Except.error CCErr.headerFailed

/-- Modelled from the spec: AEAD decryption of one ciphertext segment under
one session key (4.3), symbolic: the segment carries the key that encrypted
it; decryption authenticates exactly under that key and yields the payload. -/
def decryptSegment (k : Nat) (chunk : Bytes) : Option Bytes :=
  match chunk with
  | k' :: pt => if k' = k then some pt else none
  | [] => none

/-- Modelled from the spec: `crypt4gh.lib.decrypt_block`: try each candidate
session key in order until one authenticates the segment (4.3); `none` models
the `ValueError` when every candidate fails. -/
def decrypt_block (keys : List Nat) (chunk : Bytes) : Option Bytes :=
  keys.findSome? fun k => decryptSegment k chunk

/-- Outcome of the upload checksum validation (lines 74-82): the code always
prints a report — `matched` tells whether the expected checksum equals the
computed one, and the part checksums are printed alongside. -/
structure UploadReport where
  matched : Bool
  expected : Digest
  actual : Digest
  partChecksums : List Digest

/-- Translation of `interrogation_room_upload` (lines 59-82): read the first
`partSize` bytes, deconstruct the header, run `compute_checksums` from the
returned offset with the single retrieved session key, then report the
comparison of the computed whole-file digest against the expected checksum. -/
def interrogation_room_upload (H : Bytes → Digest) (partSize segSize : Nat)
    (ghgaSec : Nat) (expected : Digest) (container : Bytes) :
    Except CCErr UploadReport :=
  match encryption_key_store_upload H ghgaSec (container.take partSize) with
  | Except.error e => Except.error e
  | Except.ok (k, _kid, off) =>
    match compute_checksums H (decrypt_block [k]) partSize segSize (container.drop off) with
    | Except.error e => Except.error e
    | Except.ok (cs, t, _outfile) =>
      Except.ok ⟨decide (t = expected), expected, t, cs⟩

/-- Translation of `encryption_key_store_download` (lines 163-175): build a
single-packet header that seals the session key for the download user's
public key with the GHGA secret key. -/
def encryption_key_store_download (sessionKey ghgaSec userPub : Nat) : Bytes :=
  serializeHeader [sealPacket (encodePacketData (PacketData.sessionKey sessionKey)) ghgaSec userPub]

/-- Modelled from the spec: the Segmented Stream Cipher body decryption (4.3):
the first segment is tried against each candidate session key in order; the
first key that authenticates is fixed and used for all remaining segments;
failure when no candidate authenticates the first segment or a later segment
fails under the fixed key. -/
def decryptBody (keys : List Nat) (segSize : Nat) (body : Bytes) : Option Bytes :=
  match chunkify segSize body with
  | [] => some []
  | c :: cs =>
    match keys.find? (fun k => (decryptSegment k c).isSome) with
    | none => none
    | some k =>
      match mapOpt (decryptSegment k) (c :: cs) with
      | none => none
      | some ps => some ps.flatten

/-- Modelled from the spec: `crypt4gh.lib.decrypt`: deconstruct the header
with the recipient keys, seek to the returned offset, and decrypt the body
with the harvested session keys. -/
def crypt4ghDecrypt (keys : List Nat) (segSize : Nat) (file : Bytes) : Option Bytes :=
  match deconstruct keys file with
  | none => none
  | some (ks, off) => decryptBody ks segSize (file.drop off)

/-- The container assembled by `download` (lines 197-200): the fresh envelope
followed by the stored encrypted content, byte for byte. -/
def assembled_download_file (sessionKey ghgaSec r2Pub : Nat) (encryptedContent : Bytes) : Bytes :=
  encryption_key_store_download sessionKey ghgaSec r2Pub ++ encryptedContent

/-- Outcome of the download checksum validation (lines 218-226): a printed
report, mismatch does not raise. -/
structure DownloadReport where
  matched : Bool
  expected : Digest
  computed : Digest

/-- Translation of `download` (lines 187-226): assemble envelope + encrypted
content, decrypt the whole container with the download user's key, hash the
recovered plaintext and report the comparison with the expected checksum.
Returns the assembled container bytes together with the report. -/
def download (H : Bytes → Digest) (segSize : Nat) (sessionKey ghgaSec r2Sec : Nat)
    (encryptedContent expected : Bytes) : Option (Bytes × DownloadReport) :=
  match crypt4ghDecrypt [r2Sec] segSize
      (assembled_download_file sessionKey ghgaSec (pub r2Sec) encryptedContent) with
  | none => none
  | some plain =>
    some (assembled_download_file sessionKey ghgaSec (pub r2Sec) encryptedContent,
      ⟨decide (H plain = expected), expected, H plain⟩)

/-- The consecutive full `partSize`-sized slices of a byte stream: slice `i`
covers the half-open byte range from `i * partSize` to `(i+1) * partSize`. -/
def fullSlices (partSize : Nat) (s : Bytes) : List Bytes :=
  (List.range (s.length / partSize)).map fun i => (s.drop (i * partSize)).take partSize

/-- A container whose header carries two session-key packets, both sealed for
the same recipient public key, followed by a ciphertext body — the scenario
of the multi-key-header property. -/
def twoKeyContainer (sSec ghgaPub k1 k2 : Nat) (body : Bytes) : Bytes :=
  serializeHeader
    [sealPacket (encodePacketData (PacketData.sessionKey k1)) sSec ghgaPub,
     sealPacket (encodePacketData (PacketData.sessionKey k2)) sSec ghgaPub] ++ body

end CubanCrow

namespace CubanCrow

theorem chunkifyF_nil (segSize : Nat) : ∀ fuel, chunkifyF segSize fuel [] = [] := by
  intro fuel
  cases fuel with
  | zero => rfl
  | succ fuel => simp [chunkifyF]

theorem chunkifyF_fuel (segSize : Nat) :
    ∀ fuel₁ fuel₂ body, body.length ≤ fuel₁ → body.length ≤ fuel₂ →
      chunkifyF segSize fuel₁ body = chunkifyF segSize fuel₂ body := by
  intro fuel₁
  induction fuel₁ with
  | zero =>
    intro fuel₂ body h1 _
    have hb : body = [] := List.length_eq_zero.mp (Nat.le_zero.mp h1)
    subst hb
    rw [chunkifyF_nil, chunkifyF_nil]
  | succ fuel₁ ih =>
    intro fuel₂ body h1 h2
    cases body with
    | nil => rw [chunkifyF_nil, chunkifyF_nil]
    | cons a as =>
      cases fuel₂ with
      | zero => simp at h2
      | succ fuel₂ =>
        by_cases hss : segSize = 0
        · subst hss
          simp [chunkifyF]
        · have hne : ((a :: as).take segSize).isEmpty = false := by
            simp [List.take_eq_nil_iff, hss]
          simp only [chunkifyF, hne, Bool.false_eq_true, if_false]
          have hlen : ((a :: as).drop segSize).length ≤ fuel₁ := by
            simp only [List.length_drop, List.length_cons]
            simp only [List.length_cons] at h1
            omega
          have hlen2 : ((a :: as).drop segSize).length ≤ fuel₂ := by
            simp only [List.length_drop, List.length_cons]
            simp only [List.length_cons] at h2
            omega
          rw [ih fuel₂ _ hlen hlen2]

theorem chunkify_eq_nil_of_take {segSize : Nat} {body : Bytes}
    (h : body.take segSize = []) : chunkify segSize body = [] := by
  unfold chunkify
  cases hb : body.length with
  | zero =>
    have : body = [] := List.length_eq_zero.mp hb
    subst this
    rfl
  | succ n =>
    simp [chunkifyF, h]

theorem chunkify_cons {segSize : Nat} {body : Bytes} (hss : 0 < segSize)
    (hb : body ≠ []) :
    chunkify segSize body = body.take segSize :: chunkify segSize (body.drop segSize) := by
  have hne : (body.take segSize).isEmpty = false := by
    simp [List.take_eq_nil_iff, hb]
    omega
  conv_lhs => unfold chunkify
  cases hlen : body.length with
  | zero => exact absurd (List.length_eq_zero.mp hlen) hb
  | succ n =>
    simp only [chunkifyF, hne, Bool.false_eq_true, if_false]
    unfold chunkify
    rw [chunkifyF_fuel segSize n ((body.drop segSize).length) (body.drop segSize)]
    · rw [List.length_drop]
      omega
    · exact Nat.le_refl _

theorem ccFinish_ok_elim {H : Bytes → Digest} {buffer : Bytes} {filePart : Option Bytes}
    {checks : List Digest} {plain out : Bytes} {cs : List Digest} {t : Digest} {o : Bytes}
    (h : ccFinish H buffer filePart checks plain out = Except.ok (cs, t, o)) :
    t = H plain ∧ o = out ∧
      (cs = checks ∨ ∃ fp, filePart = some fp ∧ cs = checks ++ [H fp]) := by
  unfold ccFinish at h
  split at h
  · simp only [Except.ok.injEq, Prod.mk.injEq] at h
    exact ⟨h.2.1.symm, h.2.2.symm, Or.inl h.1.symm⟩
  · cases hfp : filePart with
    | none =>
      rw [hfp] at h
      simp at h
    | some fp =>
      rw [hfp] at h
      simp only [Except.ok.injEq, Prod.mk.injEq] at h
      exact ⟨h.2.1.symm, h.2.2.symm, Or.inr ⟨fp, rfl, h.1.symm⟩⟩

theorem ccLoopF_ok_total {H : Bytes → Digest} {D : Bytes → Option Bytes}
    {partSize segSize : Nat} :
    ∀ fuel rest buffer filePart checks plain out cs t o,
      ccLoopF H D partSize segSize fuel rest buffer filePart checks plain out =
        Except.ok (cs, t, o) →
      ∃ P, mapOpt D (chunkify segSize rest) = some P ∧ t = H (plain ++ P.flatten) := by
  intro fuel
  induction fuel with
  | zero =>
    intro rest buffer filePart checks plain out cs t o h
    simp only [ccLoopF] at h
    split at h
    · next hemp =>
      refine ⟨[], ?_, ?_⟩
      · rw [chunkify_eq_nil_of_take (List.isEmpty_iff.mp hemp)]
        rfl
      · rw [List.flatten_nil, List.append_nil]
        exact (ccFinish_ok_elim h).1
    · simp at h
  | succ fuel ih =>
    intro rest buffer filePart checks plain out cs t o h
    simp only [ccLoopF] at h
    split at h
    · next hemp =>
      refine ⟨[], ?_, ?_⟩
      · rw [chunkify_eq_nil_of_take (List.isEmpty_iff.mp hemp)]
        rfl
      · rw [List.flatten_nil, List.append_nil]
        exact (ccFinish_ok_elim h).1
    · next hemp =>
      have hpart : rest.take segSize ≠ [] := by
        intro hnil
        rw [hnil] at hemp
        simp at hemp
      have hss : 0 < segSize := by
        rcases Nat.eq_zero_or_pos segSize with h0 | h0
        · rw [h0] at hpart
          simp at hpart
        · exact h0
      have hrest : rest ≠ [] := by
        intro hnil
        rw [hnil] at hpart
        simp at hpart
      have hchunk := chunkify_cons hss hrest
      split at h
      all_goals
        cases hD : D (rest.take segSize) with
        | none => rw [hD] at h; simp at h
        | some dec =>
          rw [hD] at h
          obtain ⟨P', hP', ht⟩ := ih _ _ _ _ _ _ _ _ _ h
          refine ⟨dec :: P', ?_, ?_⟩
          · rw [hchunk]
            simp only [mapOpt, hD, hP']
          · rw [ht, List.flatten_cons, List.append_assoc]

theorem ccLoopF_ok_out {H : Bytes → Digest} {D : Bytes → Option Bytes}
    {partSize segSize : Nat} (hss : 0 < segSize) :
    ∀ fuel rest buffer filePart checks plain out cs t o,
      ccLoopF H D partSize segSize fuel rest buffer filePart checks plain out =
        Except.ok (cs, t, o) →
      o = out ++ rest := by
  intro fuel
  induction fuel with
  | zero =>
    intro rest buffer filePart checks plain out cs t o h
    simp only [ccLoopF] at h
    split at h
    · next hemp =>
      have : rest = [] := by
        rcases List.take_eq_nil_iff.mp (List.isEmpty_iff.mp hemp) with h0 | h0
        · omega
        · exact h0
      rw [this, List.append_nil]
      exact (ccFinish_ok_elim h).2.1
    · simp at h
  | succ fuel ih =>
    intro rest buffer filePart checks plain out cs t o h
    simp only [ccLoopF] at h
    split at h
    · next hemp =>
      have : rest = [] := by
        rcases List.take_eq_nil_iff.mp (List.isEmpty_iff.mp hemp) with h0 | h0
        · omega
        · exact h0
      rw [this, List.append_nil]
      exact (ccFinish_ok_elim h).2.1
    · split at h
      all_goals
        cases hD : D (rest.take segSize) with
        | none => rw [hD] at h; simp at h
        | some dec =>
          rw [hD] at h
          have := ih _ _ _ _ _ _ _ _ _ h
          rw [this, List.append_assoc, List.take_append_drop]

theorem ccLoopF_small_error {H : Bytes → Digest} {D : Bytes → Option Bytes}
    {partSize segSize : Nat} (hss : 0 < segSize) :
    ∀ fuel rest buffer checks plain out,
      rest.length ≤ fuel →
      buffer.length + rest.length < partSize →
      buffer ≠ [] ∨ rest ≠ [] →
      (∀ c ∈ chunkify segSize rest, (D c).isSome) →
      ccLoopF H D partSize segSize fuel rest buffer none checks plain out =
        Except.error CCErr.filePartUnassigned := by
  intro fuel
  induction fuel with
  | zero =>
    intro rest buffer checks plain out hfuel hsum hne _
    have hrest : rest = [] := List.length_eq_zero.mp (Nat.le_zero.mp hfuel)
    subst hrest
    have hbuf : buffer ≠ [] := by
      rcases hne with h | h
      · exact h
      · exact absurd rfl h
    simp [ccLoopF, ccFinish, hbuf]
  | succ fuel ih =>
    intro rest buffer checks plain out hfuel hsum hne hchunks
    by_cases hemp : (rest.take segSize).isEmpty
    · have hrest : rest = [] := by
        rcases List.take_eq_nil_iff.mp (List.isEmpty_iff.mp hemp) with h0 | h0
        · omega
        · exact h0
      subst hrest
      have hbuf : buffer ≠ [] := by
        rcases hne with h | h
        · exact h
        · exact absurd rfl h
      simp [ccLoopF, ccFinish, hbuf]
    · have hpart : rest.take segSize ≠ [] := by
        intro hnil
        rw [hnil] at hemp
        simp at hemp
      have hrest : rest ≠ [] := by
        intro hnil
        rw [hnil] at hpart
        simp at hpart
      have hpl1 : (rest.take segSize).length ≤ rest.length := by
        rw [List.length_take]
        exact Nat.min_le_right _ _
      have hpl2 : 0 < (rest.take segSize).length := List.length_pos.mpr hpart
      have hpl3 : (rest.take segSize).length ≤ segSize := by
        rw [List.length_take]
        exact Nat.min_le_left _ _
      have hrl : 0 < rest.length := List.length_pos.mpr hrest
      have hnfl : ¬ partSize ≤ (buffer ++ rest.take segSize).length := by
        rw [List.length_append]
        omega
      have hchunk := chunkify_cons hss hrest
      have hD : (D (rest.take segSize)).isSome := by
        apply hchunks
        rw [hchunk]
        exact List.mem_cons_self _ _
      obtain ⟨dec, hdec⟩ := Option.isSome_iff_exists.mp hD
      simp only [ccLoopF, hemp, Bool.false_eq_true, if_false, hnfl, hdec]
      apply ih
      · rw [List.length_drop]
        omega
      · simp only [List.length_append, List.length_drop]
        omega
      · left
        apply List.ne_nil_of_length_pos
        rw [List.length_append]
        omega
      · intro c hc
        apply hchunks
        rw [hchunk]
        exact List.mem_cons_of_mem _ hc

theorem fullSlices_of_lt {partSize : Nat} {s : Bytes} (h : s.length < partSize) :
    fullSlices partSize s = [] := by
  unfold fullSlices
  rw [Nat.div_eq_of_lt h]
  rfl

theorem fullSlices_cons {partSize : Nat} {s : Bytes} (hp : 0 < partSize)
    (h : partSize ≤ s.length) :
    fullSlices partSize s = s.take partSize :: fullSlices partSize (s.drop partSize) := by
  unfold fullSlices
  rw [List.length_drop, Nat.div_eq_sub_div hp h, List.range_succ_eq_map]
  simp only [List.map_cons, List.map_map, Nat.zero_mul, List.drop_zero]
  have hfun : ((fun i => (s.drop (i * partSize)).take partSize) ∘ Nat.succ) =
      fun i => ((s.drop partSize).drop (i * partSize)).take partSize := by
    funext i
    simp only [Function.comp_apply]
    rw [List.drop_drop, Nat.succ_mul, Nat.add_comm (i * partSize) partSize]
  rw [hfun]

theorem ccLoopF_ok_checks {H : Bytes → Digest} {D : Bytes → Option Bytes}
    {partSize segSize : Nat} (hss : 0 < segSize) (hsp : segSize ≤ partSize) :
    ∀ fuel rest buffer filePart checks plain out cs t o,
      buffer.length < partSize →
      ccLoopF H D partSize segSize fuel rest buffer filePart checks plain out =
        Except.ok (cs, t, o) →
      cs.take (checks.length + (buffer ++ rest).length / partSize) =
        checks ++ (fullSlices partSize (buffer ++ rest)).map H := by
  have hp : 0 < partSize := Nat.lt_of_lt_of_le hss hsp
  intro fuel
  induction fuel with
  | zero =>
    intro rest buffer filePart checks plain out cs t o hb h
    simp only [ccLoopF] at h
    split at h
    · next hemp =>
      have hrest : rest = [] := by
        rcases List.take_eq_nil_iff.mp (List.isEmpty_iff.mp hemp) with h0 | h0
        · omega
        · exact h0
      subst hrest
      rw [List.append_nil, Nat.div_eq_of_lt hb, fullSlices_of_lt hb]
      simp only [List.map_nil, List.append_nil, Nat.add_zero]
      rcases (ccFinish_ok_elim h).2.2 with hc | ⟨fp, _, hc⟩
      · rw [hc, List.take_length]
      · rw [hc, List.take_left]
    · simp at h
  | succ fuel ih =>
    intro rest buffer filePart checks plain out cs t o hb h
    simp only [ccLoopF] at h
    split at h
    · next hemp =>
      have hrest : rest = [] := by
        rcases List.take_eq_nil_iff.mp (List.isEmpty_iff.mp hemp) with h0 | h0
        · omega
        · exact h0
      subst hrest
      rw [List.append_nil, Nat.div_eq_of_lt hb, fullSlices_of_lt hb]
      simp only [List.map_nil, List.append_nil, Nat.add_zero]
      rcases (ccFinish_ok_elim h).2.2 with hc | ⟨fp, _, hc⟩
      · rw [hc, List.take_length]
      · rw [hc, List.take_left]
    · next hemp =>
      have hpart : rest.take segSize ≠ [] := by
        intro hnil
        rw [hnil] at hemp
        simp at hemp
      have hpl1 : (rest.take segSize).length ≤ segSize := by
        rw [List.length_take]
        exact Nat.min_le_left _ _
      have hsplit : buffer ++ rest = (buffer ++ rest.take segSize) ++ rest.drop segSize := by
        rw [List.append_assoc, List.take_append_drop]
      split at h
      · next hflush =>
        cases hD : D (rest.take segSize) with
        | none => rw [hD] at h; simp at h
        | some dec =>
          rw [hD] at h
          have hb' : ((buffer ++ rest.take segSize).drop partSize).length < partSize := by
            rw [List.length_drop, List.length_append]
            omega
          have hIH := ih _ _ _ _ _ _ _ _ _ hb' h
          have hdropS : (buffer ++ rest).drop partSize =
              (buffer ++ rest.take segSize).drop partSize ++ rest.drop segSize := by
            rw [hsplit, List.drop_append_eq_append_drop, Nat.sub_eq_zero_of_le hflush,
              List.drop_zero]
          have htakeS : (buffer ++ rest).take partSize =
              (buffer ++ rest.take segSize).take partSize := by
            rw [hsplit, List.take_append_eq_append_take, Nat.sub_eq_zero_of_le hflush,
              List.take_zero, List.append_nil]
          have hlenS : partSize ≤ (buffer ++ rest).length := by
            rw [hsplit, List.length_append]
            omega
          have hlen_eq : ((buffer ++ rest.take segSize).drop partSize ++ rest.drop segSize).length =
              (buffer ++ rest).length - partSize := by
            rw [← hdropS, List.length_drop]
          have hidx : checks.length + (buffer ++ rest).length / partSize =
              (checks ++ [H ((buffer ++ rest.take segSize).take partSize)]).length +
                ((buffer ++ rest.take segSize).drop partSize ++ rest.drop segSize).length /
                  partSize := by
            rw [Nat.div_eq_sub_div hp hlenS, hlen_eq]
            simp only [List.length_append, List.length_cons, List.length_nil]
            omega
          rw [hidx, hIH, fullSlices_cons hp hlenS, List.map_cons, htakeS, hdropS]
          simp
      · next hflush =>
        cases hD : D (rest.take segSize) with
        | none => rw [hD] at h; simp at h
        | some dec =>
          rw [hD] at h
          have hb' : (buffer ++ rest.take segSize).length < partSize := by omega
          have hIH := ih _ _ _ _ _ _ _ _ _ hb' h
          rw [hsplit]
          exact hIH

/-- Claim C10: on an empty ciphertext body (offset already at end of file)
`compute_checksums` returns no part digests and the digest of the empty byte
string, raising no error. -/
theorem compute_checksums_empty_body (H : Bytes → Digest) (D : Bytes → Option Bytes)
    (partSize segSize : Nat) :
    compute_checksums H D partSize segSize [] = Except.ok ([], H [], []) := by
  simp [compute_checksums, ccLoopF, ccFinish]

/-- Claim C1 (documents the source bug at line 127): for a ciphertext body of
exactly `3 * partSize + r` bytes with `0 < r < partSize` the loop emits
exactly 4 part digests, but the last digest is computed from the stale
`file_part` slice (the bytes of the third full part) rather than from the
final `r` remaining bytes: with `partSize = 2`, `segSize = 1` and body
`[0,1,2,3,4,5,6]` the fourth digest is `H [4,5]`, not the digest `H [6]` of
the final remaining byte. -/
theorem compute_checksums_final_digest_stale :
    compute_checksums id (fun c => some c) 2 1 [0, 1, 2, 3, 4, 5, 6] =
      Except.ok ([[0, 1], [2, 3], [4, 5], [4, 5]], [0, 1, 2, 3, 4, 5, 6],
        [0, 1, 2, 3, 4, 5, 6]) ∧
    id [6] ≠ ([4, 5] : Bytes) := by
  exact ⟨rfl, by decide⟩

/-- Claim C4: the whole-file digest returned by `compute_checksums` is the
hash of the concatenation, in order, of the decryptions of all segments of
the body — incremental per-segment updates equal hashing the concatenated
plaintext — for any part size that is not a multiple of the segment size. -/
theorem compute_checksums_total_digest (H : Bytes → Digest) (D : Bytes → Option Bytes)
    (partSize segSize : Nat) (body P : Bytes) (cs : List Digest) (t : Digest) (o : Bytes)
    (hnm : ¬ segSize ∣ partSize)
    (hP : decryptedConcat D segSize body = some P)
    (hok : compute_checksums H D partSize segSize body = Except.ok (cs, t, o)) :
    t = H P := by
  obtain ⟨P', hP', ht⟩ := ccLoopF_ok_total _ _ _ _ _ _ _ _ _ _ hok
  unfold decryptedConcat at hP
  rw [hP'] at hP
  simp only [Option.some.injEq] at hP
  rw [ht, List.nil_append, hP]

/-- Witness for C4: concrete part size 3 (not a multiple of segment size 2),
identity hash and identity segment decryption. -/
theorem compute_checksums_total_digest_witness :
    ¬ (2 : Nat) ∣ 3 ∧
    decryptedConcat (fun c => some c) 2 [1, 2, 3, 4] = some [1, 2, 3, 4] ∧
    compute_checksums id (fun c => some c) 3 2 [1, 2, 3, 4] =
      Except.ok ([[1, 2, 3], [1, 2, 3]], [1, 2, 3, 4], [1, 2, 3, 4]) ∧
    ([1, 2, 3, 4] : Bytes) = id [1, 2, 3, 4] :=
  ⟨by decide, rfl, rfl,
    compute_checksums_total_digest id (fun c => some c) 3 2 [1, 2, 3, 4] [1, 2, 3, 4]
      [[1, 2, 3], [1, 2, 3]] [1, 2, 3, 4] [1, 2, 3, 4] (by decide) rfl rfl⟩

/-- Claim C5: the bytes written to the `encrypted_content` file during upload
are exactly the input bytes from the header-end offset to end of file, and
the container assembled by `download` is exactly the new header followed by
those body bytes, byte for byte, with no re-encryption. -/
theorem download_body_passthrough (H : Bytes → Digest) (D : Bytes → Option Bytes)
    (partSize segSize : Nat) (container : Bytes) (off : Nat)
    (cs : List Digest) (t : Digest) (out : Bytes) (sessionKey ghgaSec r2Pub : Nat)
    (hss : 0 < segSize)
    (hok : compute_checksums H D partSize segSize (container.drop off) =
      Except.ok (cs, t, out)) :
    out = container.drop off ∧
      assembled_download_file sessionKey ghgaSec r2Pub out =
        encryption_key_store_download sessionKey ghgaSec r2Pub ++ container.drop off := by
  have h1 := ccLoopF_ok_out hss _ _ _ _ _ _ _ _ _ _ hok
  rw [List.nil_append] at h1
  refine ⟨h1, ?_⟩
  rw [assembled_download_file, h1]

/-- Witness for C5 at a concrete container with a 1-byte header offset. -/
theorem download_body_passthrough_witness :
    (0 : Nat) < 1 ∧
    compute_checksums id (fun c => some c) 2 1 (List.drop 1 [9, 5, 6]) =
      Except.ok ([[5, 6]], [5, 6], [5, 6]) ∧
    (([5, 6] : Bytes) = List.drop 1 [9, 5, 6] ∧
      assembled_download_file 10 5 8 [5, 6] =
        encryption_key_store_download 10 5 8 ++ List.drop 1 [9, 5, 6]) :=
  ⟨by decide, rfl,
    download_body_passthrough id (fun c => some c) 2 1 [9, 5, 6] 1 [[5, 6]] [5, 6] [5, 6]
      10 5 8 (by decide) rfl⟩

/-- Claim C8: for every non-empty decryptable ciphertext body strictly
shorter than `PART_SIZE`, `compute_checksums` does not return a single part
digest: the final-part branch reads the never-assigned variable `file_part`,
modelled as the `filePartUnassigned` error. -/
theorem compute_checksums_small_body_fails (H : Bytes → Digest) (D : Bytes → Option Bytes)
    (body : Bytes) (h1 : body ≠ []) (h2 : body.length < PART_SIZE)
    (hdec : ∀ c ∈ chunkify CIPHER_SEGMENT_SIZE body, (D c).isSome) :
    compute_checksums H D PART_SIZE CIPHER_SEGMENT_SIZE body =
      Except.error CCErr.filePartUnassigned := by
  unfold compute_checksums
  apply ccLoopF_small_error (by decide) body.length body [] [] [] []
  · exact Nat.le_refl _
  · simpa using h2
  · exact Or.inr h1
  · exact hdec

/-- Witness for C8: a one-byte body with identity decryption. -/
theorem compute_checksums_small_body_fails_witness :
    ([0] : Bytes) ≠ [] ∧
    ([0] : Bytes).length < PART_SIZE ∧
    (∀ c ∈ chunkify CIPHER_SEGMENT_SIZE [0], ((fun c => some c) c).isSome) ∧
    compute_checksums id (fun c => some c) PART_SIZE CIPHER_SEGMENT_SIZE [0] =
      Except.error CCErr.filePartUnassigned :=
  ⟨by decide, by decide, by decide,
    compute_checksums_small_body_fails id (fun c => some c) [0] (by decide) (by decide)
      (by decide)⟩

/-- Claim C9: when the segment size is at most the part size (as with the
source constants, `CIPHER_SEGMENT_SIZE ≤ PART_SIZE`), the part buffer never
reaches the part size at the start of a read iteration, so the full-part
digests emitted by `compute_checksums` partition the body prefix with no gap
or overlap: the digest at index `i` covers exactly the body bytes in the
half-open range from `i * partSize` to `(i+1) * partSize`. -/
theorem compute_checksums_full_part_alignment (H : Bytes → Digest)
    (D : Bytes → Option Bytes) (partSize segSize : Nat) (body : Bytes)
    (cs : List Digest) (t : Digest) (o : Bytes)
    (hss : 0 < segSize) (hsp : segSize ≤ partSize)
    (hok : compute_checksums H D partSize segSize body = Except.ok (cs, t, o)) :
    cs.take (body.length / partSize) = (fullSlices partSize body).map H := by
  have hp : 0 < partSize := Nat.lt_of_lt_of_le hss hsp
  have h := ccLoopF_ok_checks hss hsp body.length body [] none [] [] [] cs t o
    (by simpa using hp) hok
  simpa using h

theorem readLE32_le32 {n : Nat} (rest : Bytes) (h : n < 4294967296) :
    readLE32 (le32 n ++ rest) = some (n, rest) := by
  have hval : de32 (n % 256) (n / 256 % 256) (n / 65536 % 256) (n / 16777216 % 256) = n := by
    unfold de32
    omega
  simp [le32, readLE32, hval]

theorem parsePackets_serialize (keys : List Nat) :
    ∀ (pkts : List Bytes) (tail : Bytes) (c : Nat),
      (∀ p ∈ pkts, p.length < 4294967296) →
      parsePackets keys pkts.length (serializePackets pkts ++ tail) c =
        some (pkts.filterMap (openWith keys), c + (serializePackets pkts).length) := by
  intro pkts
  induction pkts with
  | nil =>
    intro tail c _
    simp [parsePackets, serializePackets]
  | cons p ps ih =>
    intro tail c hlen
    have hp : p.length < 4294967296 := hlen p (List.mem_cons_self _ _)
    have harr : serializePackets (p :: ps) ++ tail =
        le32 p.length ++ (p ++ (serializePackets ps ++ tail)) := by
      simp [serializePackets, List.append_assoc]
    rw [harr]
    simp only [List.length_cons, parsePackets]
    rw [readLE32_le32 _ hp]
    have hle : p.length ≤ (p ++ (serializePackets ps ++ tail)).length := by
      rw [List.length_append]
      exact Nat.le_add_right _ _
    dsimp only
    rw [if_pos hle, List.take_left, List.drop_left]
    rw [ih tail (c + 4 + p.length) (fun q hq => hlen q (List.mem_cons_of_mem _ hq))]
    dsimp only
    have hslen : (serializePackets (p :: ps)).length =
        4 + p.length + (serializePackets ps).length := by
      simp [serializePackets, le32]
      omega
    cases hOW : openWith keys p with
    | none =>
      simp only [List.filterMap_cons, hOW, Option.toList_none, List.nil_append, hslen]
      refine congrArg some (Prod.ext rfl ?_)
      simp
      omega
    | some d =>
      simp only [List.filterMap_cons, hOW, Option.toList_some, List.singleton_append, hslen]
      refine congrArg some (Prod.ext rfl ?_)
      simp
      omega

theorem deconstruct_serialize (keys : List Nat) (pkts : List Bytes) (body : Bytes)
    (hlen : ∀ p ∈ pkts, p.length < 4294967296)
    (hcount : pkts.length < 4294967296) :
    deconstruct keys (serializeHeader pkts ++ body) =
      if (openedSessionKeys keys pkts).isEmpty then none
      else some (openedSessionKeys keys pkts, (serializeHeader pkts).length) := by
  have h8 : MAGIC.length = 8 := rfl
  have harr : serializeHeader pkts ++ body =
      MAGIC ++ (le32 VERSION ++ (le32 pkts.length ++ (serializePackets pkts ++ body))) := by
    simp [serializeHeader, List.append_assoc]
  have hhl : (serializeHeader pkts).length = 16 + (serializePackets pkts).length := by
    simp [serializeHeader, MAGIC, le32]
    omega
  unfold deconstruct
  rw [harr, List.take_left' h8, if_pos rfl, List.drop_left' h8,
    readLE32_le32 _ (by decide : VERSION < 4294967296)]
  dsimp only
  rw [if_pos rfl, readLE32_le32 _ hcount]
  dsimp only
  rw [parsePackets_serialize keys pkts body 16 hlen]
  dsimp only
  rw [hhl]
  rfl

theorem openWith_singleton (sk : Nat) (p : Bytes) :
    openWith [sk] p = openPacket sk p := by
  unfold openWith
  cases h : openPacket sk p <;> simp [List.findSome?, h]

theorem openPacket_seal_sessionKey (K sSec rSec : Nat) (hK : K < 4294967296) :
    openPacket rSec (sealPacket (encodePacketData (PacketData.sessionKey K)) sSec (pub rSec)) =
      some (PacketData.sessionKey K) := by
  have h4 : (le32 (pub rSec)).length = 4 := rfl
  have hval : de32 (K % 256) (K / 256 % 256) (K / 65536 % 256) (K / 16777216 % 256) = K := by
    unfold de32
    omega
  unfold openPacket sealPacket
  rw [List.take_left' h4, if_pos rfl, List.drop_left' h4]
  simp [encodePacketData, decodePacketData, le32, hval]

theorem decrypt_block_singleton (k : Nat) (c : Bytes) :
    decrypt_block [k] c = decryptSegment k c := by
  unfold decrypt_block
  cases h : decryptSegment k c <;> simp [List.findSome?, h]

theorem mapOpt_congr {α β : Type} {f g : α → Option β} :
    ∀ l : List α, (∀ a ∈ l, f a = g a) → mapOpt f l = mapOpt g l := by
  intro l
  induction l with
  | nil => intro _; rfl
  | cons a as ih =>
    intro h
    simp only [mapOpt]
    rw [h a (List.mem_cons_self _ _), ih fun b hb => h b (List.mem_cons_of_mem _ hb)]

theorem decryptBody_singleton (k : Nat) (segSize : Nat) (body : Bytes) :
    decryptBody [k] segSize body = decryptedConcat (decrypt_block [k]) segSize body := by
  unfold decryptBody decryptedConcat
  have hmap : mapOpt (decrypt_block [k]) (chunkify segSize body) =
      mapOpt (decryptSegment k) (chunkify segSize body) :=
    mapOpt_congr _ fun c _ => decrypt_block_singleton k c
  rw [hmap]
  cases hch : chunkify segSize body with
  | nil => rfl
  | cons c cs =>
    cases hd : decryptSegment k c with
    | none => simp [List.find?, hd, mapOpt]
    | some p0 =>
      simp [List.find?, hd, mapOpt]

theorem sealPacket_sessionKey_length (K sSec rPub : Nat) :
    (sealPacket (encodePacketData (PacketData.sessionKey K)) sSec rPub).length = 9 := by
  simp [sealPacket, encodePacketData, le32]

theorem deconstruct_download_header (K sSec rSec : Nat) (hK : K < 4294967296)
    (body : Bytes) :
    deconstruct [rSec] (encryption_key_store_download K sSec (pub rSec) ++ body) =
      some ([K], 29) := by
  have hlen1 : ∀ p ∈ [sealPacket (encodePacketData (PacketData.sessionKey K)) sSec (pub rSec)],
      p.length < 4294967296 := by
    intro p hp
    rw [List.mem_singleton] at hp
    subst hp
    rw [sealPacket_sessionKey_length]
    omega
  have hcnt1 : ([sealPacket (encodePacketData (PacketData.sessionKey K)) sSec (pub rSec)]).length
      < 4294967296 := by
    simp
  unfold encryption_key_store_download
  rw [deconstruct_serialize [rSec]
    [sealPacket (encodePacketData (PacketData.sessionKey K)) sSec (pub rSec)] body
    hlen1 hcnt1]
  have hop : openedSessionKeys [rSec]
      [sealPacket (encodePacketData (PacketData.sessionKey K)) sSec (pub rSec)] = [K] := by
    simp [openedSessionKeys, List.filterMap_cons, openWith_singleton,
      openPacket_seal_sessionKey K sSec rSec hK, sessionKeyOf]
  rw [hop]
  have hl : (serializeHeader
      [sealPacket (encodePacketData (PacketData.sessionKey K)) sSec (pub rSec)]).length = 29 := by
    simp [serializeHeader, serializePackets, sealPacket, encodePacketData, MAGIC, le32]
  rw [hl]
  rfl

theorem download_header_length (K sSec rPub : Nat) :
    (encryption_key_store_download K sSec rPub).length = 29 := by
  simp [encryption_key_store_download, serializeHeader, serializePackets, sealPacket,
    encodePacketData, MAGIC, le32]

/-- Claim C3: encoding a header for session key `K` and a recipient, then
decoding it with that recipient's private key, yields exactly `K`; and
re-enveloping the ciphertext body for a second recipient `R2` and decrypting
the resulting container with `R2`'s private key recovers the identical
plaintext and the same whole-file digest as the original upload run. -/
theorem header_roundtrip_reenvelope (H : Bytes → Digest)
    (K sSec rSec ghgaSec r2Sec : Nat) (partSize segSize : Nat)
    (body : Bytes) (cs : List Digest) (t : Digest) (o : Bytes)
    (hK : K < 4294967296)
    (hok : compute_checksums H (decrypt_block [K]) partSize segSize body =
      Except.ok (cs, t, o)) :
    deconstruct [rSec] (encryption_key_store_download K sSec (pub rSec)) = some ([K], 29) ∧
    ∃ P, decryptedConcat (decrypt_block [K]) segSize body = some P ∧
      crypt4ghDecrypt [r2Sec] segSize
          (encryption_key_store_download K ghgaSec (pub r2Sec) ++ body) = some P ∧
      t = H P := by
  constructor
  · have h := deconstruct_download_header K sSec rSec hK []
    rwa [List.append_nil] at h
  · obtain ⟨P', hP', ht⟩ := ccLoopF_ok_total _ _ _ _ _ _ _ _ _ _ hok
    refine ⟨P'.flatten, ?_, ?_, ?_⟩
    · unfold decryptedConcat
      rw [hP']
    · unfold crypt4ghDecrypt
      rw [deconstruct_download_header K ghgaSec r2Sec hK body]
      dsimp only
      have hdrop : (encryption_key_store_download K ghgaSec (pub r2Sec) ++ body).drop 29 =
          body := List.drop_left' (download_header_length K ghgaSec (pub r2Sec))
      rw [hdrop, decryptBody_singleton]
      unfold decryptedConcat
      rw [hP']
    · rw [ht, List.nil_append]

/-- Witness for C3: session key 10, recipients 7 and 12, two-segment body. -/
theorem header_roundtrip_reenvelope_witness :
    (10 : Nat) < 4294967296 ∧
    compute_checksums id (decrypt_block [10]) 2 2 [10, 3, 10, 4] =
      Except.ok ([[10, 3], [10, 4]], [3, 4], [10, 3, 10, 4]) ∧
    (deconstruct [7] (encryption_key_store_download 10 5 (pub 7)) = some ([10], 29) ∧
      ∃ P, decryptedConcat (decrypt_block [10]) 2 [10, 3, 10, 4] = some P ∧
        crypt4ghDecrypt [12] 2
            (encryption_key_store_download 10 5 (pub 12) ++ [10, 3, 10, 4]) = some P ∧
        ([3, 4] : Digest) = id P) :=
  ⟨by decide, rfl,
    header_roundtrip_reenvelope id 10 5 7 5 12 2 2 [10, 3, 10, 4]
      [[10, 3], [10, 4]] [3, 4] [10, 3, 10, 4] (by decide) rfl⟩

theorem encryption_key_store_upload_serialize (H : Bytes → Digest) (ghgaSec : Nat)
    (pkts : List Bytes) (tail : Bytes) (k : Nat) (ks : List Nat)
    (hlen : ∀ p ∈ pkts, p.length < 4294967296)
    (hcount : pkts.length < 4294967296)
    (hopen : openedSessionKeys [ghgaSec] pkts = k :: ks) :
    encryption_key_store_upload H ghgaSec (serializeHeader pkts ++ tail) =
      Except.ok (k, H (le32 k), (serializeHeader pkts).length) := by
  unfold encryption_key_store_upload
  rw [deconstruct_serialize [ghgaSec] pkts tail hlen hcount, hopen]
  rfl

/-- Claim C6: the offset returned by header decoding is exactly the byte
position immediately following the last header packet — the first byte of the
ciphertext body — and the downstream `compute_checksums` run of the upload
pipeline seeks to that offset and consumes exactly the body bytes from there,
without re-parsing the header. -/
theorem header_offset_exact (H : Bytes → Digest) (ghgaSec : Nat) (pkts : List Bytes)
    (body : Bytes) (k : Nat) (ks : List Nat) (partSize segSize : Nat) (expected : Digest)
    (hlen : ∀ p ∈ pkts, p.length < 4294967296)
    (hcount : pkts.length < 4294967296)
    (hopen : openedSessionKeys [ghgaSec] pkts = k :: ks)
    (hfits : (serializeHeader pkts).length ≤ partSize) :
    encryption_key_store_upload H ghgaSec (serializeHeader pkts ++ body) =
      Except.ok (k, H (le32 k), (serializeHeader pkts).length) ∧
    (serializeHeader pkts ++ body).drop (serializeHeader pkts).length = body ∧
    interrogation_room_upload H partSize segSize ghgaSec expected
        (serializeHeader pkts ++ body) =
      (match compute_checksums H (decrypt_block [k]) partSize segSize body with
       | Except.error e => Except.error e
       | Except.ok (cs, t, _) => Except.ok ⟨decide (t = expected), expected, t, cs⟩) := by
  refine ⟨encryption_key_store_upload_serialize H ghgaSec pkts body k ks hlen hcount hopen,
    List.drop_left _ _, ?_⟩
  unfold interrogation_room_upload
  have htk : (serializeHeader pkts ++ body).take partSize =
      serializeHeader pkts ++ body.take (partSize - (serializeHeader pkts).length) := by
    rw [List.take_append_eq_append_take, List.take_of_length_le hfits]
  rw [htk, encryption_key_store_upload_serialize H ghgaSec pkts
    (body.take (partSize - (serializeHeader pkts).length)) k ks hlen hcount hopen]
  dsimp only
  rw [List.drop_left]

/-- Witness for C6: one session-key packet for GHGA key 5 carrying key 10,
and a 2-byte body. -/
theorem header_offset_exact_witness :
    (∀ p ∈ [[6, 0, 0, 0, 0, 10, 0, 0, 0]], List.length p < 4294967296) ∧
    ([[6, 0, 0, 0, 0, 10, 0, 0, 0]] : List Bytes).length < 4294967296 ∧
    openedSessionKeys [5] [[6, 0, 0, 0, 0, 10, 0, 0, 0]] = [10] ∧
    (serializeHeader [[6, 0, 0, 0, 0, 10, 0, 0, 0]]).length ≤ 30 ∧
    (encryption_key_store_upload id 5 (serializeHeader [[6, 0, 0, 0, 0, 10, 0, 0, 0]] ++ [10, 3]) =
        Except.ok (10, id (le32 10), (serializeHeader [[6, 0, 0, 0, 0, 10, 0, 0, 0]]).length) ∧
      (serializeHeader [[6, 0, 0, 0, 0, 10, 0, 0, 0]] ++ [10, 3]).drop
          (serializeHeader [[6, 0, 0, 0, 0, 10, 0, 0, 0]]).length = [10, 3] ∧
      interrogation_room_upload id 30 2 5 [3]
          (serializeHeader [[6, 0, 0, 0, 0, 10, 0, 0, 0]] ++ [10, 3]) =
        (match compute_checksums id (decrypt_block [10]) 30 2 [10, 3] with
         | Except.error e => Except.error e
         | Except.ok (cs, t, _) => Except.ok ⟨decide (t = [3]), [3], t, cs⟩)) :=
  ⟨by decide, by decide, by decide, by decide,
    header_offset_exact id 5 [[6, 0, 0, 0, 0, 10, 0, 0, 0]] [10, 3] 10 [] 30 2 [3]
      (by decide) (by decide) (by decide) (by decide)⟩

theorem compute_checksums_first_chunk_error (H : Bytes → Digest) (D : Bytes → Option Bytes)
    (partSize segSize : Nat) (body c : Bytes) (ctail : List Bytes)
    (hch : chunkify segSize body = c :: ctail)
    (hD : D c = none) :
    compute_checksums H D partSize segSize body = Except.error CCErr.decryptFailed := by
  have hbody : body ≠ [] := by
    intro h0
    rw [h0] at hch
    simp [chunkify, chunkifyF] at hch
  have hss : 0 < segSize := by
    rcases Nat.eq_zero_or_pos segSize with h0 | h0
    · rw [h0] at hch
      rw [chunkify_eq_nil_of_take (List.take_zero _)] at hch
      exact absurd hch (by simp)
    · exact h0
  have hcons := chunkify_cons hss hbody
  have hc : c = body.take segSize := by
    have h := hch.symm.trans hcons
    exact (List.cons.injEq _ _ _ _ ▸ h).1
  unfold compute_checksums
  cases hbl : body.length with
  | zero => exact absurd (List.length_eq_zero.mp hbl) hbody
  | succ n =>
    have hemp : (body.take segSize).isEmpty = false := by
      simp [List.take_eq_nil_iff, hbody]
      omega
    simp only [ccLoopF, hemp, Bool.false_eq_true, if_false]
    rw [← hc, hD]
    split <;> rfl

/-- Counterexample to claim C2: a container whose header carries 2
session-key packets (GHGA key 5 opens both, harvesting keys 10 and 20) and
whose body authenticates only under the 2nd key 20; the claim asserts
decryption succeeds, but the upload pipeline forwards only the first key and
fails with a decryption error. -/
theorem multikey_header_counterexample :
    deconstruct [5] (twoKeyContainer 99 (pub 5) 10 20 [20, 7, 20, 8]) = some ([10, 20], 42) ∧
    decryptedConcat (decrypt_block [20]) 2 [20, 7, 20, 8] = some [7, 8] ∧
    decryptedConcat (decrypt_block [10]) 2 [20, 7, 20, 8] = none ∧
    interrogation_room_upload id 100 2 5 [] (twoKeyContainer 99 (pub 5) 10 20 [20, 7, 20, 8]) =
      Except.error CCErr.decryptFailed := by
  exact ⟨rfl, rfl, rfl, rfl⟩

/-- Claim C2 (amended): the prototype forwards only the FIRST session key
harvested from the header to the checksum pipeline and decrypts every
segment with that single key, never trying later candidates; hence for a
header with 2 session-key packets where only the 2nd authenticates the first
body segment, upload decryption fails with a decryption error instead of
succeeding. -/
theorem upload_uses_first_session_key_only (H : Bytes → Digest)
    (sSec ghgaSec k1 k2 : Nat) (partSize segSize : Nat) (body expected : Bytes)
    (c : Bytes) (ctail : List Bytes)
    (hk1 : k1 < 4294967296) (hk2 : k2 < 4294967296)
    (hch : chunkify segSize body = c :: ctail)
    (hfail : decryptSegment k1 c = none)
    (hfits : 42 ≤ partSize) :
    encryption_key_store_upload H ghgaSec
        ((twoKeyContainer sSec (pub ghgaSec) k1 k2 body).take partSize) =
      Except.ok (k1, H (le32 k1), 42) ∧
    interrogation_room_upload H partSize segSize ghgaSec expected
        (twoKeyContainer sSec (pub ghgaSec) k1 k2 body) =
      Except.error CCErr.decryptFailed := by
  have hlen2 : ∀ p ∈ [sealPacket (encodePacketData (PacketData.sessionKey k1)) sSec (pub ghgaSec),
      sealPacket (encodePacketData (PacketData.sessionKey k2)) sSec (pub ghgaSec)],
      p.length < 4294967296 := by
    intro p hp
    rcases List.mem_cons.mp hp with h0 | h0
    · subst h0
      rw [sealPacket_sessionKey_length]
      omega
    · rw [List.mem_singleton] at h0
      subst h0
      rw [sealPacket_sessionKey_length]
      omega
  have hcnt2 : ([sealPacket (encodePacketData (PacketData.sessionKey k1)) sSec (pub ghgaSec),
      sealPacket (encodePacketData (PacketData.sessionKey k2)) sSec (pub ghgaSec)] :
        List Bytes).length < 4294967296 := by
    simp
  have hopen2 : openedSessionKeys [ghgaSec]
      [sealPacket (encodePacketData (PacketData.sessionKey k1)) sSec (pub ghgaSec),
       sealPacket (encodePacketData (PacketData.sessionKey k2)) sSec (pub ghgaSec)] =
      [k1, k2] := by
    simp [openedSessionKeys, List.filterMap_cons, openWith_singleton,
      openPacket_seal_sessionKey k1 sSec ghgaSec hk1,
      openPacket_seal_sessionKey k2 sSec ghgaSec hk2, sessionKeyOf]
  have hhdl : (serializeHeader
      [sealPacket (encodePacketData (PacketData.sessionKey k1)) sSec (pub ghgaSec),
       sealPacket (encodePacketData (PacketData.sessionKey k2)) sSec (pub ghgaSec)]).length =
      42 := by
    simp [serializeHeader, serializePackets, sealPacket, encodePacketData, MAGIC, le32]
  constructor
  · unfold twoKeyContainer
    have htk : (serializeHeader
        [sealPacket (encodePacketData (PacketData.sessionKey k1)) sSec (pub ghgaSec),
         sealPacket (encodePacketData (PacketData.sessionKey k2)) sSec (pub ghgaSec)] ++
          body).take partSize =
        serializeHeader
          [sealPacket (encodePacketData (PacketData.sessionKey k1)) sSec (pub ghgaSec),
           sealPacket (encodePacketData (PacketData.sessionKey k2)) sSec (pub ghgaSec)] ++
          body.take (partSize - 42) := by
      rw [List.take_append_eq_append_take, List.take_of_length_le (by rw [hhdl]; exact hfits),
        hhdl]
    rw [htk, encryption_key_store_upload_serialize H ghgaSec _ _ k1 [k2] hlen2 hcnt2 hopen2,
      hhdl]
  · unfold interrogation_room_upload twoKeyContainer
    have htk : (serializeHeader
        [sealPacket (encodePacketData (PacketData.sessionKey k1)) sSec (pub ghgaSec),
         sealPacket (encodePacketData (PacketData.sessionKey k2)) sSec (pub ghgaSec)] ++
          body).take partSize =
        serializeHeader
          [sealPacket (encodePacketData (PacketData.sessionKey k1)) sSec (pub ghgaSec),
           sealPacket (encodePacketData (PacketData.sessionKey k2)) sSec (pub ghgaSec)] ++
          body.take (partSize - 42) := by
      rw [List.take_append_eq_append_take, List.take_of_length_le (by rw [hhdl]; exact hfits),
        hhdl]
    rw [htk, encryption_key_store_upload_serialize H ghgaSec _ _ k1 [k2] hlen2 hcnt2 hopen2]
    dsimp only
    rw [List.drop_left, compute_checksums_first_chunk_error H (decrypt_block [k1])
      partSize segSize body c ctail hch (by rw [decrypt_block_singleton]; exact hfail)]

/-- Witness for the amended C2 at the concrete two-key container. -/
theorem upload_uses_first_session_key_only_witness :
    (10 : Nat) < 4294967296 ∧ (20 : Nat) < 4294967296 ∧
    chunkify 2 [20, 7, 20, 8] = [20, 7] :: [[20, 8]] ∧
    decryptSegment 10 [20, 7] = none ∧ (42 : Nat) ≤ 100 ∧
    (encryption_key_store_upload id 5
        ((twoKeyContainer 99 (pub 5) 10 20 [20, 7, 20, 8]).take 100) =
      Except.ok (10, id (le32 10), 42) ∧
    interrogation_room_upload id 100 2 5 [9]
        (twoKeyContainer 99 (pub 5) 10 20 [20, 7, 20, 8]) =
      Except.error CCErr.decryptFailed) :=
  ⟨by decide, by decide, rfl, rfl, by decide,
    upload_uses_first_session_key_only id 99 5 10 20 100 2 [20, 7, 20, 8] [9]
      [20, 7] [[20, 8]] (by decide) (by decide) rfl rfl (by decide)⟩

/-- Claim C7: in both the upload and download verification paths a checksum
mismatch is surfaced as a report value comparing expected and actual digests:
the report states exactly whether they match (never a silent pass), the run
succeeds for EVERY expected value with the same computed digests and part
checksums (the file is fully processed before the comparison, and a mismatch
never raises or crashes — only the report flag changes). -/
theorem checksum_mismatch_reported (H : Bytes → Digest) (partSize segSize ghgaSec : Nat)
    (expected : Digest) (container : Bytes) (rep : UploadReport)
    (segSize2 sessionKey ghgaSec2 r2Sec : Nat) (encContent : Bytes)
    (dexpected : Digest) (f : Bytes) (drep : DownloadReport)
    (hup : interrogation_room_upload H partSize segSize ghgaSec expected container =
      Except.ok rep)
    (hdl : download H segSize2 sessionKey ghgaSec2 r2Sec encContent dexpected =
      some (f, drep)) :
    (rep.expected = expected ∧ (rep.matched = true ↔ rep.actual = expected) ∧
      ∀ e2, interrogation_room_upload H partSize segSize ghgaSec e2 container =
        Except.ok ⟨decide (rep.actual = e2), e2, rep.actual, rep.partChecksums⟩) ∧
    (drep.expected = dexpected ∧ (drep.matched = true ↔ drep.computed = dexpected) ∧
      ∀ e2, download H segSize2 sessionKey ghgaSec2 r2Sec encContent e2 =
        some (f, ⟨decide (drep.computed = e2), e2, drep.computed⟩)) := by
  constructor
  · unfold interrogation_room_upload at hup
    cases hek : encryption_key_store_upload H ghgaSec (container.take partSize) with
    | error e =>
      rw [hek] at hup
      simp at hup
    | ok trip =>
      obtain ⟨k, kid, off⟩ := trip
      rw [hek] at hup
      dsimp only at hup
      cases hcc : compute_checksums H (decrypt_block [k]) partSize segSize
          (container.drop off) with
      | error e =>
        rw [hcc] at hup
        simp at hup
      | ok res =>
        obtain ⟨cs, t, outfile⟩ := res
        rw [hcc] at hup
        dsimp only at hup
        have hrep : rep = ⟨decide (t = expected), expected, t, cs⟩ := by
          cases hup
          rfl
        subst hrep
        refine ⟨rfl, by simp, ?_⟩
        intro e2
        unfold interrogation_room_upload
        rw [hek]
        dsimp only
        rw [hcc]
  · unfold download at hdl
    cases hdec : crypt4ghDecrypt [r2Sec] segSize2
        (assembled_download_file sessionKey ghgaSec2 (pub r2Sec) encContent) with
    | none =>
      rw [hdec] at hdl
      simp at hdl
    | some plain =>
      rw [hdec] at hdl
      dsimp only at hdl
      have hpair : f = assembled_download_file sessionKey ghgaSec2 (pub r2Sec) encContent ∧
          drep = ⟨decide (H plain = dexpected), dexpected, H plain⟩ := by
        cases hdl
        exact ⟨rfl, rfl⟩
      obtain ⟨hf, hdrep⟩ := hpair
      subst hf
      subst hdrep
      refine ⟨rfl, by simp, ?_⟩
      intro e2
      unfold download
      rw [hdec]

/-- Witness for C7: a header-only upload container (empty body) and a
one-segment download container, both with matching checksums. -/
theorem checksum_mismatch_reported_witness :
    interrogation_room_upload id 29 2 5 [] (encryption_key_store_download 10 99 (pub 5)) =
      Except.ok ⟨true, [], [], []⟩ ∧
    download id 2 10 5 7 [10, 3] [3] =
      some (assembled_download_file 10 5 (pub 7) [10, 3], ⟨true, [3], [3]⟩) ∧
    ((([] : Digest) = [] ∧ ((true : Bool) = true ↔ ([] : Digest) = []) ∧
      ∀ e2, interrogation_room_upload id 29 2 5 e2 (encryption_key_store_download 10 99 (pub 5)) =
        Except.ok ⟨decide (([] : Digest) = e2), e2, [], []⟩) ∧
    (([3] : Digest) = [3] ∧ ((true : Bool) = true ↔ ([3] : Digest) = [3]) ∧
      ∀ e2, download id 2 10 5 7 [10, 3] e2 =
        some (assembled_download_file 10 5 (pub 7) [10, 3], ⟨decide (([3] : Digest) = e2), e2, [3]⟩))) :=
  ⟨rfl, rfl,
    checksum_mismatch_reported id 29 2 5 [] (encryption_key_store_download 10 99 (pub 5))
      ⟨true, [], [], []⟩ 2 10 5 7 [10, 3] [3]
      (assembled_download_file 10 5 (pub 7) [10, 3]) ⟨true, [3], [3]⟩ rfl rfl⟩

/-- Witness for C9 at a concrete two-part body. -/
theorem compute_checksums_full_part_alignment_witness :
    (0 : Nat) < 1 ∧ (1 : Nat) ≤ 2 ∧
    compute_checksums id (fun c => some c) 2 1 [0, 1, 2, 3] =
      Except.ok ([[0, 1], [2, 3]], [0, 1, 2, 3], [0, 1, 2, 3]) ∧
    ([[0, 1], [2, 3]] : List Digest).take (([0, 1, 2, 3] : Bytes).length / 2) =
      (fullSlices 2 [0, 1, 2, 3]).map id :=
  ⟨by decide, by decide, rfl,
    compute_checksums_full_part_alignment id (fun c => some c) 2 1 [0, 1, 2, 3]
      [[0, 1], [2, 3]] [0, 1, 2, 3] [0, 1, 2, 3] (by decide) (by decide) rfl⟩

end CubanCrow
